import Mathlib

/-!
Shallow embedding of the core signal-processing pipeline of
`python_auditory_toolbox/auditory_toolbox_torch.py` (a PyTorch port of the
Matlab Auditory Toolbox), together with theorems settling the frozen claims
about the natural-language specification of that file.

Conventions of the embedding:
* Python/torch `float64` values are modelled as exact real numbers (`ℝ`) in
  the analytic parts (ERB scale, gammatone design, correlogram frames) and as
  rationals (`ℚ`) in the pitch extractor, whose arithmetic is purely
  rational, so that it stays fully computable.
* Tensors are modelled as functions from (channel, time/lag) indices, with
  their lengths carried separately; movies are lists of frames.
* Code that can raise a Python exception is modelled with `Option`:
  `none` is the raising execution, `some` the normal return.
* Python `int(x)` truncation toward zero is `pyInt`; Python slice-index
  normalisation (negative indices count from the end, then clamp) is `pyIdx`.
-/

/-- Python `int(x)` for a real/rational `x`: truncation toward zero. -/
def pyInt {α : Type} [LinearOrderedField α] [FloorRing α] (x : α) : ℤ :=
  if 0 ≤ x then ⌊x⌋ else ⌈x⌉

/-- Python slice-endpoint normalisation for a sequence of length `len`:
a negative index counts from the end, and the result is clamped to
`[0, len]`. -/
def pyIdx (len : ℕ) (i : ℤ) : ℕ :=
  (max 0 (min (len : ℤ) (if i < 0 then i + len else i))).toNat

/-! ## ERB frequency scale (`erb_space`, lines 111-153) -/

/-- Glasberg and Moore parameter `ear_q = 9.26449` of `erb_space` and
`make_erb_filters`. -/
noncomputable def earQ : ℝ := 9.26449

/-- Glasberg and Moore parameter `min_bw = 24.7` of `erb_space` and
`make_erb_filters`. -/
noncomputable def minBw : ℝ := 24.7

/-- Entry `k` (0-based; the source's `torch.arange(1, 1+n)` index is `k+1`)
of the center-frequency array computed by `erb_space` (lines 149-152):
`-(ear_q*min_bw) + exp((k+1) * (-log(high+ear_q*min_bw) +
log(low+ear_q*min_bw))/n) * (high+ear_q*min_bw)`. -/
noncomputable def erbCf (low high : ℝ) (n : ℤ) (k : ℕ) : ℝ :=
  -(earQ * minBw) +
    Real.exp (((k : ℝ) + 1) *
        (-Real.log (high + earQ * minBw) + Real.log (low + earQ * minBw)) / (n : ℝ)) *
      (high + earQ * minBw)

/-- `erb_space(low_freq, high_freq, n)`.  The source performs no argument
validation; the only executions that raise are `torch.arange(1, 1+n)` for
`n < 0` (a `RuntimeError`: the upper bound `1+n` lies below the lower bound
`1` with a positive step; the arange is evaluated before the logs) and
`math.log` on a non-positive argument (`high_freq + ear_q*min_bw ≤ 0` or
`low_freq + ear_q*min_bw ≤ 0`).  At `n = 0` the arange is empty and the
`/n` is a division of that empty tensor (the product
`arange(1,1+n).unsqueeze(1) * logdiff` is a tensor, and `/` associates
left), so no `ZeroDivisionError` occurs and an empty tensor is returned. -/
noncomputable def erb_space (low high : ℝ) (n : ℤ) : Option (List ℝ) :=
  if n < 0 ∨ high + earQ * minBw ≤ 0 ∨ low + earQ * minBw ≤ 0 then none
  else some ((List.range n.toNat).map (erbCf low high n))

/-! ## Gammatone coefficient designer (`make_erb_filters`, lines 156-243) -/

/-- The per-channel bandwidth parameter of `make_erb_filters`:
`erb = ((cf/ear_q)**order + min_bw**order)**(1/order)` with `order = 1`,
then `b = 1.019*2*pi*erb` (lines 195-199). -/
noncomputable def erbB (cf : ℝ) : ℝ :=
  1.019 * 2 * Real.pi * (((cf / earQ) ^ ((1 : ℝ)) + minBw ^ ((1 : ℝ))) ^ ((1 : ℝ) / 1))

/-- The `a11` coefficient of `make_erb_filters` (lines 201-203). -/
noncomputable def erbA11 (t cf : ℝ) : ℝ :=
  -(2 * t * Real.cos (2 * cf * Real.pi * t) / Real.exp (erbB cf * t) +
      2 * Real.sqrt (3 + 2 ^ ((1.5 : ℝ))) * t * Real.sin (2 * cf * Real.pi * t) /
        Real.exp (erbB cf * t)) / 2

/-- The `a12` coefficient of `make_erb_filters` (lines 204-206). -/
noncomputable def erbA12 (t cf : ℝ) : ℝ :=
  -(2 * t * Real.cos (2 * cf * Real.pi * t) / Real.exp (erbB cf * t) -
      2 * Real.sqrt (3 + 2 ^ ((1.5 : ℝ))) * t * Real.sin (2 * cf * Real.pi * t) /
        Real.exp (erbB cf * t)) / 2

/-- The `a13` coefficient of `make_erb_filters` (lines 207-209). -/
noncomputable def erbA13 (t cf : ℝ) : ℝ :=
  -(2 * t * Real.cos (2 * cf * Real.pi * t) / Real.exp (erbB cf * t) +
      2 * Real.sqrt (3 - 2 ^ ((1.5 : ℝ))) * t * Real.sin (2 * cf * Real.pi * t) /
        Real.exp (erbB cf * t)) / 2

/-- The `a14` coefficient of `make_erb_filters` (lines 210-212). -/
noncomputable def erbA14 (t cf : ℝ) : ℝ :=
  -(2 * t * Real.cos (2 * cf * Real.pi * t) / Real.exp (erbB cf * t) -
      2 * Real.sqrt (3 - 2 ^ ((1.5 : ℝ))) * t * Real.sin (2 * cf * Real.pi * t) /
        Real.exp (erbB cf * t)) / 2

/-- One of the four complex numerator factors of the `gain` expression of
`make_erb_filters` (lines 214-229): `-2*exp(4i*cf*pi*t)*t +
2*exp(-b*t + 2i*cf*pi*t)*t*(cos(2*cf*pi*t) + sgn*sqrt(s)*sin(2*cf*pi*t))`. -/
noncomputable def gainFactor (t cf sgn s : ℝ) : ℂ :=
  -2 * Complex.exp (4 * Complex.I * cf * Real.pi * t) * t +
    2 * Complex.exp (-(erbB cf * t) + 2 * Complex.I * cf * Real.pi * t) * t *
      ((Real.cos (2 * cf * Real.pi * t) : ℂ) + sgn * (Real.sqrt s : ℂ) * (Real.sin (2 * cf * Real.pi * t) : ℂ))

/-- The `gain` coefficient of `make_erb_filters` (lines 214-233): the complex
modulus of the four numerator factors divided by the common denominator
raised to the fourth power. -/
noncomputable def erbGain (t cf : ℝ) : ℝ :=
  Complex.abs
    (gainFactor t cf (-1) (3 - 2 ^ ((3 : ℝ) / 2)) *
      gainFactor t cf 1 (3 - 2 ^ ((3 : ℝ) / 2)) *
      gainFactor t cf (-1) (3 + 2 ^ ((3 : ℝ) / 2)) *
      gainFactor t cf 1 (3 + 2 ^ ((3 : ℝ) / 2)) /
      (-2 / Complex.exp (2 * erbB cf * t) -
          2 * Complex.exp (4 * Complex.I * cf * Real.pi * t) +
          2 * (1 + Complex.exp (4 * Complex.I * cf * Real.pi * t)) /
            Complex.exp (erbB cf * t)) ^ (4 : ℕ))

/-- The list of ten per-channel coefficient arrays returned by
`make_erb_filters` (lines 235-241): `[a0, a11, a12, a13, a14, a2, b0, b1,
b2, gain]`. -/
structure Fcoefs where
  a0 : List ℝ
  a11 : List ℝ
  a12 : List ℝ
  a13 : List ℝ
  a14 : List ℝ
  a2 : List ℝ
  b0 : List ℝ
  b1 : List ℝ
  b2 : List ℝ
  gain : List ℝ

/-- `make_erb_filters(fs, cf_list, low_freq)` on the branch where the center
frequencies are supplied explicitly (when `num_channels` is an `int` the
source first calls `erb_space(low_freq, fs/2, num_channels)` and proceeds
identically).  The body performs no validation: the only raising execution
is the `ZeroDivisionError` of `t = 1/fs` at `fs = 0`; every other input,
including a negative sample rate and non-positive or above-Nyquist center
frequencies, returns the ten coefficient arrays.  (Division of the complex
`gain` expression by a vanishing denominator yields `inf`/`nan` floats in
torch, not an exception.) -/
noncomputable def make_erb_filters (fs : ℝ) (cf : List ℝ) : Option Fcoefs :=
  if fs = 0 then none
  else
    let t := 1 / fs
    some
      { a0 := cf.map fun _ => t
        a11 := cf.map fun c => erbA11 t c
        a12 := cf.map fun c => erbA12 t c
        a13 := cf.map fun c => erbA13 t c
        a14 := cf.map fun c => erbA14 t c
        a2 := cf.map fun _ => 0
        b0 := cf.map fun _ => 1
        b1 := cf.map fun c => -2 * Real.cos (2 * c * Real.pi * t) / Real.exp (erbB c * t)
        b2 := cf.map fun c => Real.exp (-2 * erbB c * t)
        gain := cf.map fun c => erbGain t c }

/-! ## Second-order-section assembler (`prepare_coefficients`, lines 248-278) -/

/-- The assertion block of `prepare_coefficients` (lines 263-270):
`n_chan = a0.shape[0]` followed by seven `assert n_chan == X.shape[0]`
statements, for `X` in `a11, a12, a13, a14, b0, b1, gain`.  Note that the
source contains no assertion for `a2` or `b2`. -/
def prepareAsserts (fc : Fcoefs) : Bool :=
  (fc.a11.length == fc.a0.length) && (fc.a12.length == fc.a0.length) &&
    (fc.a13.length == fc.a0.length) && (fc.a14.length == fc.a0.length) &&
    (fc.b0.length == fc.a0.length) && (fc.b1.length == fc.a0.length) &&
    (fc.gain.length == fc.a0.length)

/-- The per-channel `sos` tensor assembled by `prepare_coefficients`
(lines 272-276), as a function of (row, column): row `r` is the `r`-th tap,
column `j < 4` is the numerator of filtering stage `j`, column `4` is the
shared denominator:
row 0 = `[a0/gain, a0, a0, a0, b0]`,
row 1 = `[a11/gain, a12, a13, a14, b1]`,
row 2 = `[a2/gain, a2, a2, a2, b2]`. -/
noncomputable def sosOf (fc : Fcoefs) (c : ℕ) : ℕ → ℕ → ℝ := fun r j =>
  if r = 0 then
    if j = 0 then fc.a0.getD c 0 / fc.gain.getD c 0
    else if j = 4 then fc.b0.getD c 0
    else fc.a0.getD c 0
  else if r = 1 then
    if j = 0 then fc.a11.getD c 0 / fc.gain.getD c 0
    else if j = 1 then fc.a12.getD c 0
    else if j = 2 then fc.a13.getD c 0
    else if j = 3 then fc.a14.getD c 0
    else fc.b1.getD c 0
  else if r = 2 then
    if j = 0 then fc.a2.getD c 0 / fc.gain.getD c 0
    else if j = 4 then fc.b2.getD c 0
    else fc.a2.getD c 0
  else 0

/-- `prepare_coefficients`: the assertion block followed by the assembly of
the `sos` tensor; a failing assertion raises (`none`). -/
noncomputable def prepare_coefficients (fc : Fcoefs) : Option (ℕ → ℕ → ℕ → ℝ) :=
  if prepareAsserts fc then some (sosOf fc) else none

/-- Replace the `a2` and `b2` arrays of a coefficient list, keeping the
other eight. -/
def withA2B2 (fc : Fcoefs) (x y : List ℝ) : Fcoefs :=
  ⟨fc.a0, fc.a11, fc.a12, fc.a13, fc.a14, x, fc.b0, fc.b1, y, fc.gain⟩

/-! ## Filterbank executor (`ErbFilterBank.forward`, lines 72-108)

`torchaudio.functional.lfilter` with three-tap coefficient vectors realizes
the standard order-2 (biquad) difference equation
`y[i] = (n0*x[i] + n1*x[i-1] + n2*x[i-2] - d1*y[i-1] - d2*y[i-2]) / d0`,
with zero initial conditions (`clamp=False` disables output clamping). -/

/-- One step of the biquad recurrence: the remaining input, then the
previous and second-previous input and output samples. -/
noncomputable def biquadRun (n0 n1 n2 d0 d1 d2 : ℝ) : List ℝ → ℝ → ℝ → ℝ → ℝ → List ℝ
  | [], _, _, _, _ => []
  | x :: xs, x1, x2, y1, y2 =>
    let y := (n0 * x + n1 * x1 + n2 * x2 - d1 * y1 - d2 * y2) / d0
    y :: biquadRun n0 n1 n2 d0 d1 d2 xs x x1 y y1

/-- `lfilter(x, a_coeffs, b_coeffs, clamp=False)` for three-tap numerator
`num` and denominator `den`, zero initial conditions. -/
noncomputable def lfilter3 : ℝ × ℝ × ℝ → ℝ × ℝ × ℝ → List ℝ → List ℝ
  | (n0, n1, n2), (d0, d1, d2), x => biquadRun n0 n1 n2 d0 d1 d2 x 0 0 0 0

/-- Column `j` of a per-channel `sos` matrix, as the coefficient triple
`(sos[0,j], sos[1,j], sos[2,j])` (the source passes `self.sos[..., j]` to
`lfilter`). -/
def sosCol (s : ℕ → ℕ → ℝ) (j : ℕ) : ℝ × ℝ × ℝ := (s 0 j, s 1 j, s 2 j)

/-- One channel of `ErbFilterBank.forward` (lines 97-108): first
`lfilter(x, sos[..., -1], sos[..., 0])`, then the loop
`for j in range(3): y = lfilter(y, sos[..., -1], sos[..., j+1])`.
Column 4 (`sos[..., -1]`) is the shared denominator. -/
noncomputable def erbForwardChannel (s : ℕ → ℕ → ℝ) (x : List ℝ) : List ℝ :=
  (List.range 3).foldl (fun y j => lfilter3 (sosCol s (j + 1)) (sosCol s 4) y)
    (lfilter3 (sosCol s 0) (sosCol s 4) x)

/-- `ErbFilterBank.forward`: the input is broadcast across the channels and
each channel `c` is filtered with its own coefficient matrix `s c`,
independently of the others. -/
noncomputable def erbForward (s : ℕ → ℕ → ℕ → ℝ) (x : List ℝ) (c : ℕ) : List ℝ :=
  erbForwardChannel (s c) x

/-- The three-stage cascade that the spec describes for the filterbank
executor ("a cascade of 3 second-order (biquad) sections per channel",
stage `r` built from row `r` of the assembled coefficients, all stages
sharing the denominator `[1, b1, b2]`).  This definition follows the spec's
words and exists only to be compared with `erbForwardChannel`. -/
noncomputable def specThreeStageCascade (s : ℕ → ℕ → ℝ) (x : List ℝ) : List ℝ :=
  lfilter3 (s 2 0, s 2 1, s 2 2) (sosCol s 4)
    (lfilter3 (s 1 0, s 1 1, s 1 2) (sosCol s 4)
      (lfilter3 (s 0 0, s 0 1, s 0 2) (sosCol s 4) x))

/-! ## Correlogram frame builder (`correlogram_frame`, lines 457-542) -/

/-- The defaulted window length: `if not win_len: win_len = data_len`
(lines 499-500; only `0` is falsy). -/
def corrWinLen (dataLen : ℕ) (winLen : ℤ) : ℤ :=
  if winLen = 0 then (dataLen : ℤ) else winLen

/-- The FFT size (line 503): `2**ceil(log2(2*max(pic_width, win_len)))`. -/
def fftSizeOf (picWidth : ℕ) (winLen : ℤ) : ℕ :=
  2 ^ Nat.clog 2 (2 * max picWidth winLen.toNat)

/-- Sample `i` of the raised-cosine analysis window (lines 508-515):
`a = .54`, `b = -.46`, `wr = sqrt(64/256)`, `phi = pi/win_len`,
`ws[i] = 2*wr/sqrt(4*a*a+2*b*b) * (a + b*cos(2*pi*i/win_len + phi))`. -/
noncomputable def corrWindow (winLen : ℤ) (i : ℕ) : ℝ :=
  2 * Real.sqrt (64 / 256) / Real.sqrt (4 * 0.54 * 0.54 + 2 * (-0.46) * (-0.46)) *
    (0.54 + (-0.46) * Real.cos (2 * Real.pi * (i : ℝ) / (winLen : ℝ) + Real.pi / (winLen : ℝ)))

/-- The windowed, zero-padded segment (lines 505-522): with
`start = max(0, start)` and `last = min(data_len, start+win_len)`,
`f[..., :(last-start)] = data[..., start:last] * ws[:(last-start)]` and `0`
elsewhere. -/
noncomputable def corrSegment (data : ℕ → ℕ → ℝ) (dataLen : ℕ) (start wl : ℤ) :
    ℕ → ℕ → ℝ := fun c n =>
  if (n : ℤ) < min (dataLen : ℤ) (max 0 start + wl) - max 0 start then
    data c ((max 0 start).toNat + n) * corrWindow wl n
  else 0

/-- Circular autocorrelation of a length-`N` signal: the exact value of
`torch.real(torch.fft.ifft(torch.fft.fft(f) * torch.conj(torch.fft.fft(f))))`
at index `k` (lines 524-526), by the Wiener-Khinchin identity for the
discrete Fourier transform. -/
noncomputable def circAcf (f : ℕ → ℝ) (N : ℕ) (k : ℕ) : ℝ :=
  ∑ n in Finset.range N, f n * f ((n + k) % N)

/-- `pic` before normalization (line 529): the autocorrelation clipped below
at zero, `maximum(0, real(f))`, truncated to the first `pic_width` lags. -/
noncomputable def corrPic (data : ℕ → ℕ → ℝ) (dataLen picWidth : ℕ) (start winLen : ℤ) :
    ℕ → ℕ → ℝ := fun c k =>
  max 0 (circAcf (corrSegment data dataLen start (corrWinLen dataLen winLen) c)
      (fftSizeOf picWidth (corrWinLen dataLen winLen)) k)

/-- The `good_rows` test (lines 532-534): the channel's lag-0 value is
positive and strictly exceeds the lag-1 and lag-2 values. -/
def goodRow (pic : ℕ → ℕ → ℝ) (c : ℕ) : Prop :=
  0 < pic c 0 ∧ pic c 1 < pic c 0 ∧ pic c 2 < pic c 0

open Classical in
/-- `correlogram_frame` (lines 538-542): `norm_factor` is `1/sqrt(pic[...,0])`
on good rows and `0` elsewhere, and the returned frame is
`pic * norm_factor`.  This function describes the contents of a returned
frame; note that in the source the good-row test reads `pic[..., 1]` and
`pic[..., 2]` and therefore raises `IndexError` when `pic_width < 3`
(`correlogram_array` accounts for that raise path). -/
noncomputable def correlogram_frame (data : ℕ → ℕ → ℝ) (dataLen picWidth : ℕ)
    (start winLen : ℤ) : ℕ → ℕ → ℝ := fun c k =>
  if goodRow (corrPic data dataLen picWidth start winLen) c then
    corrPic data dataLen picWidth start winLen c k *
      (1 / Real.sqrt (corrPic data dataLen picWidth start winLen c 0))
  else 0

/-! ## Correlogram array builder (`correlogram_array`, lines 546-589) -/

/-- `correlogram_array(data, sampling_rate, frame_rate, width)` (lines
573-589): `frame_increment = int(sampling_rate/frame_rate)`,
`frame_count = int((sample_len-width)/frame_increment) + 1` (Python 3 true
division of ints, then truncation toward zero), one `correlogram_frame` per
`i in range(frame_count)` with `start = i*frame_increment` and
`win_len = frame_increment*4`.  The raising executions, each a `none`
branch: `frame_increment = 0` is a `ZeroDivisionError` in the
`frame_count` line; `frame_count ≤ 0` makes `torch.cat` raise on the empty
movie list; a negative `frame_increment` gives `win_len = 4*frame_increment
< 0` and `torch.arange(win_len)` raises inside the first frame; and
`width < 3` makes the good-row test of each frame raise `IndexError` at
`pic[..., 1]`/`pic[..., 2]`. -/
noncomputable def correlogram_array (data : ℕ → ℕ → ℝ) (dataLen : ℕ) (sr : ℝ)
    (frameRate : ℤ) (width : ℕ) : Option (List (ℕ → ℕ → ℝ)) :=
  let inc : ℤ := pyInt (sr / (frameRate : ℝ))
  if inc = 0 then none
  else
    let frameCount : ℤ := pyInt (((dataLen : ℝ) - (width : ℝ)) / (inc : ℝ)) + 1
    if frameCount ≤ 0 then none
    else if inc < 0 then none
    else if width < 3 then none
    else
      some ((List.range frameCount.toNat).map fun i : ℕ =>
        correlogram_frame data dataLen width ((i : ℤ) * inc) (inc * 4))

/-! ## Pitch/salience extractor (`correlogram_pitch`, lines 594-688)

Every operation of the extractor (channel sums, the running-sum `lfilter`,
first differences, comparisons, `argmax`, divisions) is rational, so this
part of the embedding lives over `ℚ` and is fully computable.  The one
semantic caveat: at `zero_lag = 0` the float code produces `inf`/`nan`
(no exception) where `ℚ` yields `0`; no theorem below evaluates salience
there. -/

/-- `summary = torch.sum(correlogram[j, :, :], axis=0)` (line 663): the
channel sum of one frame at lag `l`.  Its value at lag 0 is `zero_lag`
(line 664). -/
def summaryOf (frame : ℕ → ℕ → ℚ) (channels : ℕ) (l : ℕ) : ℚ :=
  ∑ c in Finset.range channels, frame c l

/-- `sumfilt = lfilter(summary, a_coefs, b_coefs)` with
`b_coefs = ones(16)`, `a_coefs = [1, 0, ..., 0]` (lines 669-673): the
running sum of the last `16` summary values. -/
def sumfiltOf (frame : ℕ → ℕ → ℚ) (channels : ℕ) (n : ℕ) : ℚ :=
  ∑ k in Finset.range 16, if k ≤ n then summaryOf frame channels (n - k) else 0

/-- `sumdif = sumfilt[1:width] - sumfilt[:width-1]` followed by
`sumdif[:window_length] = 0` (lines 675-676), defined on `i < width - 1`. -/
def sumdifOf (frame : ℕ → ℕ → ℚ) (channels : ℕ) (i : ℕ) : ℚ :=
  if i < 16 then 0
  else sumfiltOf frame channels (i + 1) - sumfiltOf frame channels i

/-- `valleys = torch.argwhere(sumdif > 0)` and its first entry
`valleys[0, 0]` (lines 677-678): the first index `i < width - 1` with
`sumdif[i] > 0`, or `none` — in which case `valleys[0, 0]` raises an
out-of-range `IndexError`. -/
def valleyOf (frame : ℕ → ℕ → ℚ) (channels width : ℕ) : Option ℕ :=
  (List.range (width - 1)).find? fun i => decide (0 < sumdifOf frame channels i)

/-- The summary after the three zeroing assignments (lines 678-680):
`summary[:int(valleys[0,0])] = 0`, `summary[1:drop_low] = 0` with
`drop_low = int(sr/high_pitch)` (line 650), and `summary[drop_high:] = 0`
with `drop_high = int(min(width, ceil(sr/low_pitch)))` if `low_pitch > 0`
else `width` (lines 651-654).  Slices use Python index normalisation. -/
def maskedSummaryOf (frame : ℕ → ℕ → ℚ) (channels width : ℕ) (sr lowp highp : ℚ)
    (v : ℕ) (l : ℕ) : ℚ :=
  let dropLow : ℤ := pyInt (sr / highp)
  let dropHigh : ℤ := if 0 < lowp then min (width : ℤ) ⌈sr / lowp⌉ else (width : ℤ)
  if l < pyIdx width (v : ℤ) then 0
  else if pyIdx width 1 ≤ l ∧ l < pyIdx width dropLow then 0
  else if pyIdx width dropHigh ≤ l ∧ l < width then 0
  else summaryOf frame channels l

/-- `torch.argmax` over the first `n` entries of `f`: the first index
attaining the maximum (`0` when `n = 0`). -/
def argmaxOn (f : ℕ → ℚ) (n : ℕ) : ℕ :=
  (List.range n).foldl (fun acc i => if f acc < f i then i else acc) 0

/-- The body of the per-frame loop of `correlogram_pitch` (lines 660-687):
`none` is the `IndexError` raised at `valleys[0, 0]` when no valley exists;
otherwise the pair `(pitch, salience)` with `p = argmax(summary)`,
`pitch = sr/p` if `p > 0` else `0`, and `salience = summary[p]/zero_lag`. -/
def pitchFrame (frame : ℕ → ℕ → ℚ) (channels width : ℕ) (sr lowp highp : ℚ) :
    Option (ℚ × ℚ) :=
  match valleyOf frame channels width with
  | none => none
  | some v =>
    let ms := maskedSummaryOf frame channels width sr lowp highp v
    let p := argmaxOn ms width
    some (if 0 < p then sr / (p : ℚ) else 0, ms p / summaryOf frame channels 0)

/-- The frame loop of `correlogram_pitch`: processes frames `0, ..., n-1`
in order, collecting the `(pitch, salience)` pairs; any frame's
`IndexError` aborts the whole call. -/
def pitchLoop (movie : ℕ → ℕ → ℕ → ℚ) (channels width : ℕ) (sr lowp highp : ℚ) :
    ℕ → Option (List (ℚ × ℚ))
  | 0 => some []
  | j + 1 =>
    match pitchLoop movie channels width sr lowp highp j,
        pitchFrame (movie j) channels width sr lowp highp with
    | some acc, some r => some (acc ++ [r])
    | _, _ => none

/-- `correlogram_pitch(correlogram, width, sr, low_pitch, high_pitch)` on a
three-dimensional movie of shape `(frames, channels, width)` (the source
raises `TypeError` on any other rank, which the movie representation makes
inexpressible).  Returns the per-frame `(pitch, salience)` pairs. -/
def correlogram_pitch (movie : ℕ → ℕ → ℕ → ℚ) (frames channels width : ℕ)
    (sr lowp highp : ℚ) : Option (List (ℚ × ℚ)) :=
  pitchLoop movie channels width sr lowp highp frames

/-- The masked summary exactly as the claims describe it: after the valley
cut at `v`, lags `1` through `floor(sr/high_pitch) - 1` zeroed, and lags
from `ceil(sr/low_pitch)` onward zeroed when `low_pitch > 0` (from `width`
onward otherwise).  This definition follows the spec's words and exists
only to be compared with `maskedSummaryOf`. -/
def specMaskedSummary (frame : ℕ → ℕ → ℚ) (channels width : ℕ) (sr lowp highp : ℚ)
    (v : ℕ) (l : ℕ) : ℚ :=
  if l < v then 0
  else if 1 ≤ l ∧ (l : ℤ) < ⌊sr / highp⌋ then 0
  else if (if 0 < lowp then ⌈sr / lowp⌉ ≤ (l : ℤ) else (width : ℤ) ≤ (l : ℤ)) then 0
  else summaryOf frame channels l

/-! ## Concrete inputs used by the witnesses and counterexamples -/

/-- A one-channel, one-sample constant signal. -/
noncomputable def oneData : ℕ → ℕ → ℝ := fun _ _ => 1

/-- A one-channel signal for exercising `correlogram_array`; its values are
irrelevant to the frame count. -/
noncomputable def arrData : ℕ → ℕ → ℝ := fun _ _ => 1

/-- Synthetic coefficient arrays for one channel: `a0 = a11 = a12 = a13 =
a14 = b0 = 1`, `a2 = b1 = b2 = 0`, `gain = 1`, giving four FIR stages
`1 + z⁻¹` and an identity denominator. -/
noncomputable def exFc : Fcoefs :=
  ⟨[1], [1], [1], [1], [1], [0], [1], [0], [0], [1]⟩

/-- Coefficient arrays whose `a2` has two channels while every asserted
array has one. -/
noncomputable def badFc : Fcoefs :=
  ⟨[1], [1], [1], [1], [1], [1, 1], [1], [1], [1], [1]⟩

/-- A movie (1 frame, 1 channel, width 20) that is a valid non-negative
correlogram: lag 0 carries the maximum 10, lag 17 carries 5. -/
def movieC3 : ℕ → ℕ → ℕ → ℚ := fun _ _ l =>
  if l = 0 then 10 else if l = 17 then 5 else 0

/-- The extractor's output on `movieC3`. -/
def resC3 : List (ℚ × ℚ) := [(100 / 17, 1 / 2)]

/-- A movie (1 frame, 1 channel, width 20) with lag-0 value 4 and a peak 5
at lag 17. -/
def movieC5 : ℕ → ℕ → ℕ → ℚ := fun _ _ l =>
  if l = 17 then 5 else if l = 0 then 4 else 0

/-- The extractor's output on `movieC5`. -/
def resC5 : List (ℚ × ℚ) := [(100 / 17, 5 / 4)]

/-- The all-zero movie: a valid, non-negative correlogram input. -/
def zeroMovie : ℕ → ℕ → ℕ → ℚ := fun _ _ _ => 0

/-! ## Helper lemmas -/

lemma pitchLoop_length (movie : ℕ → ℕ → ℕ → ℚ) (channels width : ℕ)
    (sr lowp highp : ℚ) :
    ∀ n res, pitchLoop movie channels width sr lowp highp n = some res →
      res.length = n := by
  intro n
  induction n with
  | zero =>
    intro res h
    simp only [pitchLoop, Option.some.injEq] at h
    simp [← h]
  | succ m ih =>
    intro res h
    simp only [pitchLoop] at h
    cases hl : pitchLoop movie channels width sr lowp highp m with
    | none => rw [hl] at h; simp at h
    | some acc =>
      rw [hl] at h
      cases hf : pitchFrame (movie m) channels width sr lowp highp with
      | none => rw [hf] at h; simp at h
      | some r =>
        rw [hf] at h
        simp only [Option.some.injEq] at h
        rw [← h, List.length_append, ih acc hl]
        simp

lemma pitchLoop_get (movie : ℕ → ℕ → ℕ → ℚ) (channels width : ℕ)
    (sr lowp highp : ℚ) :
    ∀ n res, pitchLoop movie channels width sr lowp highp n = some res →
      ∀ j, j < n →
        pitchFrame (movie j) channels width sr lowp highp =
          some (res.getD j (0, 0)) := by
  intro n
  induction n with
  | zero => intro res _ j hj; exact absurd hj (Nat.not_lt_zero j)
  | succ m ih =>
    intro res h j hj
    simp only [pitchLoop] at h
    cases hl : pitchLoop movie channels width sr lowp highp m with
    | none => rw [hl] at h; simp at h
    | some acc =>
      rw [hl] at h
      cases hf : pitchFrame (movie m) channels width sr lowp highp with
      | none => rw [hf] at h; simp at h
      | some r =>
        rw [hf] at h
        simp only [Option.some.injEq] at h
        have hacc : acc.length = m := pitchLoop_length movie channels width sr lowp highp m acc hl
        rcases Nat.lt_succ_iff_lt_or_eq.mp hj with hjm | hjeq
        · rw [← h, List.getD_eq_getElem?_getD, List.getElem?_append_left (hacc ▸ hjm),
            ← List.getD_eq_getElem?_getD]
          exact ih acc hl j hjm
        · subst hjeq
          rw [← h, List.getD_eq_getElem?_getD,
            List.getElem?_append_right (le_of_eq hacc), hacc]
          simpa using hf

lemma argmaxFold_bound (f : ℕ → ℚ) (n : ℕ) :
    ∀ (l : List ℕ) (acc : ℕ), (∀ i ∈ l, i < n) → acc < n →
      l.foldl (fun a i => if f a < f i then i else a) acc < n := by
  intro l
  induction l with
  | nil => intro acc _ h; exact h
  | cons i t ih =>
    intro acc hmem hacc
    simp only [List.foldl_cons]
    by_cases hc : f acc < f i
    · rw [if_pos hc]
      exact ih i (fun x hx => hmem x (List.mem_cons_of_mem _ hx))
        (hmem i (List.mem_cons_self _ _))
    · rw [if_neg hc]
      exact ih acc (fun x hx => hmem x (List.mem_cons_of_mem _ hx)) hacc

lemma argmaxOn_lt (f : ℕ → ℚ) (n : ℕ) (hn : 0 < n) : argmaxOn f n < n :=
  argmaxFold_bound f n (List.range n) 0 (fun _ hj => List.mem_range.mp hj) hn

lemma argmaxFold_congr (f g : ℕ → ℚ) :
    ∀ (l : List ℕ) (a : ℕ), f a = g a → (∀ i ∈ l, f i = g i) →
      l.foldl (fun x i => if f x < f i then i else x) a =
        l.foldl (fun x i => if g x < g i then i else x) a := by
  intro l
  induction l with
  | nil => intro a _ _; rfl
  | cons i t ih =>
    intro a hfg hmem
    have hi : f i = g i := hmem i (List.mem_cons_self _ _)
    simp only [List.foldl_cons]
    by_cases hc : f a < f i
    · rw [if_pos hc, if_pos (by rw [← hfg, ← hi]; exact hc)]
      exact ih i hi (fun x hx => hmem x (List.mem_cons_of_mem _ hx))
    · rw [if_neg hc, if_neg (by rw [← hfg, ← hi]; exact hc)]
      exact ih a hfg (fun x hx => hmem x (List.mem_cons_of_mem _ hx))

lemma argmaxOn_congr (f g : ℕ → ℚ) (n : ℕ) (hn : 0 < n)
    (h : ∀ i < n, f i = g i) : argmaxOn f n = argmaxOn g n :=
  argmaxFold_congr f g (List.range n) 0 (h 0 hn)
    (fun i hi => h i (List.mem_range.mp hi))

lemma find?_range'_eq (p : ℕ → Bool) (m : ℕ) :
    ∀ (k s : ℕ), s ≤ m → m < s + k → (∀ i, s ≤ i → i < m → ¬ p i = true) →
      p m = true → (List.range' s k).find? p = some m := by
  intro k
  induction k with
  | zero => intro s h1 h2 _ _; omega
  | succ k ih =>
    intro s hsm hm hbelow hp
    rw [List.range'_succ s k 1]
    rcases eq_or_lt_of_le hsm with heq | hlt
    · subst heq; exact List.find?_cons_of_pos _ hp
    · rw [List.find?_cons_of_neg _ (hbelow s le_rfl hlt)]
      exact ih (s + 1) hlt (by omega) (fun i h1 h2 => hbelow i (by omega) h2) hp

lemma valleyOf_eq (frame : ℕ → ℕ → ℚ) (channels width m : ℕ)
    (hm : m < width - 1)
    (hbelow : ∀ i < m, ¬ 0 < sumdifOf frame channels i)
    (hp : 0 < sumdifOf frame channels m) :
    valleyOf frame channels width = some m := by
  unfold valleyOf
  rw [List.range_eq_range' (width - 1)]
  refine find?_range'_eq _ m (width - 1) 0 (Nat.zero_le m) (by omega) ?_ ?_
  · intro i _ hi
    simpa using hbelow i hi
  · simpa using hp

lemma valleyOf_eq_none (frame : ℕ → ℕ → ℚ) (channels width : ℕ)
    (h : ∀ i < width - 1, ¬ 0 < sumdifOf frame channels i) :
    valleyOf frame channels width = none := by
  unfold valleyOf
  refine List.find?_eq_none.mpr fun i hi => ?_
  simpa using h i (List.mem_range.mp hi)

/-! ## Claim theorems -/

/-- C9 (amended): the assertion block of `prepare_coefficients` is
insensitive to the `a2` and `b2` arrays, and passing it is equivalent to
the other eight arrays `{a0, a11, a12, a13, a14, b0, b1, gain}` sharing one
channel count; it does not enforce equality for all ten arrays. -/
theorem prepareAsserts_checks_eight (fc : Fcoefs) (x y : List ℝ) :
    prepareAsserts (withA2B2 fc x y) = prepareAsserts fc ∧
      (prepareAsserts fc = true ↔
        (fc.a11.length = fc.a0.length ∧ fc.a12.length = fc.a0.length ∧
          fc.a13.length = fc.a0.length ∧ fc.a14.length = fc.a0.length ∧
          fc.b0.length = fc.a0.length ∧ fc.b1.length = fc.a0.length ∧
          fc.gain.length = fc.a0.length)) := by
  refine ⟨rfl, ?_⟩
  simp [prepareAsserts, Bool.and_eq_true, beq_iff_eq, and_assoc]

/-- C9 counterexample: a coefficient list whose `a2` array has two channels
while all asserted arrays have one passes the assertion, so the assertion
does not reject every list with mismatched channel counts among the ten
arrays. -/
theorem prepareAsserts_passes_mismatched_a2 :
    prepareAsserts badFc = true ∧ badFc.a2.length ≠ badFc.a0.length := by
  constructor
  · rfl
  · decide

/-- C10: on the all-zero (valid, non-negative, rank-3) correlogram movie the
valley search finds no index with a positive smoothed first difference, and
`correlogram_pitch` aborts with the out-of-range indexing error (`none`)
instead of returning pitch/salience lists: the extractor is partial even on
rank-3 inputs. -/
theorem correlogram_pitch_empty_valleys :
    (∀ f c l, 0 ≤ zeroMovie f c l) ∧
      valleyOf (zeroMovie 0) 1 20 = none ∧
      correlogram_pitch zeroMovie 1 1 20 8000 0 2000 = none := by
  have hdif : ∀ i, sumdifOf (zeroMovie 0) 1 i = 0 := by
    intro i
    simp [sumdifOf, sumfiltOf, summaryOf, zeroMovie]
  have hv : valleyOf (zeroMovie 0) 1 20 = none :=
    valleyOf_eq_none _ _ _ fun i _ => by rw [hdif i]; exact lt_irrefl 0
  refine ⟨fun _ _ _ => le_refl 0, hv, ?_⟩
  simp [correlogram_pitch, pitchLoop, pitchFrame, hv]

lemma pyIdx_natCast (len m : ℕ) : pyIdx len (m : ℤ) = min m len := by
  unfold pyIdx
  rw [if_neg (Int.not_lt.mpr (Int.natCast_nonneg m))]
  omega

lemma pyIdx_of_nonneg (len : ℕ) (i : ℤ) (h0 : 0 ≤ i) :
    pyIdx len i = (min (len : ℤ) i).toNat := by
  unfold pyIdx
  rw [if_neg (not_lt.mpr h0)]
  omega

lemma valley_lt_width (frame : ℕ → ℕ → ℚ) (channels width v : ℕ)
    (hv : valleyOf frame channels width = some v) : v < width - 1 := by
  have hmem := List.mem_of_find?_eq_some hv
  exact List.mem_range.mp hmem

/-- C3: if the pitch extractor completes on a movie whose frame `j` is a
valid correlogram frame (entry-wise non-negative, and within each channel
no lag value exceeds the lag-0 value) and whose channel-summed lag-0 value
`zero_lag` is strictly positive, then the salience reported for frame `j`,
`summary[p]/zero_lag`, lies in `[0, 1]`. -/
theorem correlogram_pitch_salience_in_unit
    (movie : ℕ → ℕ → ℕ → ℚ) (frames channels width : ℕ) (sr lowp highp : ℚ)
    (res : List (ℚ × ℚ)) (j : ℕ)
    (hres : correlogram_pitch movie frames channels width sr lowp highp = some res)
    (hj : j < frames)
    (hnn : ∀ c < channels, ∀ l < width, 0 ≤ movie j c l)
    (hdom : ∀ c < channels, ∀ l < width, movie j c l ≤ movie j c 0)
    (hzl : 0 < summaryOf (movie j) channels 0) :
    0 ≤ (res.getD j (0, 0)).2 ∧ (res.getD j (0, 0)).2 ≤ 1 := by
  have hframe := pitchLoop_get movie channels width sr lowp highp frames res hres j hj
  cases hv : valleyOf (movie j) channels width with
  | none => rw [pitchFrame, hv] at hframe; exact absurd hframe (by simp)
  | some v =>
    have hw : 0 < width := by have := valley_lt_width _ _ _ _ hv; omega
    simp only [pitchFrame, hv, Option.some.injEq] at hframe
    have h2 : (res.getD j (0, 0)).2 =
        maskedSummaryOf (movie j) channels width sr lowp highp v
            (argmaxOn (maskedSummaryOf (movie j) channels width sr lowp highp v) width) /
          summaryOf (movie j) channels 0 := (congrArg Prod.snd hframe).symm
    set p := argmaxOn (maskedSummaryOf (movie j) channels width sr lowp highp v) width
      with hpdef
    have hpw : p < width := argmaxOn_lt _ _ hw
    have hcases : maskedSummaryOf (movie j) channels width sr lowp highp v p = 0 ∨
        maskedSummaryOf (movie j) channels width sr lowp highp v p =
          summaryOf (movie j) channels p := by
      simp only [maskedSummaryOf]
      split_ifs <;> simp
    have hbounds : 0 ≤ maskedSummaryOf (movie j) channels width sr lowp highp v p ∧
        maskedSummaryOf (movie j) channels width sr lowp highp v p ≤
          summaryOf (movie j) channels 0 := by
      rcases hcases with hz | hs
      · rw [hz]; exact ⟨le_refl 0, le_of_lt hzl⟩
      · rw [hs]
        constructor
        · exact Finset.sum_nonneg fun c hc =>
            hnn c (Finset.mem_range.mp hc) p hpw
        · exact Finset.sum_le_sum fun c hc =>
            hdom c (Finset.mem_range.mp hc) p hpw
    rw [h2]
    exact ⟨div_nonneg hbounds.1 (le_of_lt hzl), (div_le_one hzl).mpr hbounds.2⟩

/-- C5: when the extractor completes, the pitch reported for frame `j` is
`sr/p` when `p > 0` and `0` when `p = 0`, where `p` is the argmax of the
channel-summed frame after the valley cut, after zeroing lags `1` through
`floor(sr/high_pitch) - 1`, and after zeroing lags from `ceil(sr/low_pitch)`
onward when `low_pitch > 0` (from `width` onward otherwise). -/
theorem correlogram_pitch_reported_pitch
    (movie : ℕ → ℕ → ℕ → ℚ) (frames channels width : ℕ) (sr lowp highp : ℚ)
    (res : List (ℚ × ℚ)) (j v : ℕ)
    (hres : correlogram_pitch movie frames channels width sr lowp highp = some res)
    (hj : j < frames)
    (hv : valleyOf (movie j) channels width = some v)
    (hsr : 0 < sr) (hhp : 0 < highp) :
    (res.getD j (0, 0)).1 =
      if 0 < argmaxOn (specMaskedSummary (movie j) channels width sr lowp highp v) width
      then sr / (argmaxOn (specMaskedSummary (movie j) channels width sr lowp highp v) width : ℚ)
      else 0 := by
  have hframe := pitchLoop_get movie channels width sr lowp highp frames res hres j hj
  simp only [pitchFrame, hv, Option.some.injEq] at hframe
  have hwv : v < width - 1 := valley_lt_width _ _ _ _ hv
  have hw : 0 < width := by omega
  have hmask : ∀ l < width,
      maskedSummaryOf (movie j) channels width sr lowp highp v l =
        specMaskedSummary (movie j) channels width sr lowp highp v l := by
    intro l hl
    have hD0 : (0 : ℤ) ≤ ⌊sr / highp⌋ :=
      Int.floor_nonneg.mpr (div_nonneg (le_of_lt hsr) (le_of_lt hhp))
    have hdl : pyInt (sr / highp) = ⌊sr / highp⌋ := by
      unfold pyInt
      rw [if_pos (div_nonneg (le_of_lt hsr) (le_of_lt hhp))]
    have e1 : (l < pyIdx width (v : ℤ)) ↔ l < v := by
      rw [pyIdx_natCast]; omega
    have e2 : (pyIdx width 1 ≤ l ∧ l < pyIdx width (pyInt (sr / highp))) ↔
        (1 ≤ l ∧ (l : ℤ) < ⌊sr / highp⌋) := by
      rw [hdl, pyIdx_of_nonneg width _ hD0]
      have h1 : pyIdx width 1 = 1 := by
        have : ((1 : ℕ) : ℤ) = (1 : ℤ) := rfl
        rw [← this, pyIdx_natCast]; omega
      rw [h1]
      omega
    have e3 : (pyIdx width (if 0 < lowp then min (width : ℤ) ⌈sr / lowp⌉ else (width : ℤ)) ≤ l
          ∧ l < width) ↔
        (if 0 < lowp then ⌈sr / lowp⌉ ≤ (l : ℤ) else (width : ℤ) ≤ (l : ℤ)) := by
      by_cases hc : 0 < lowp
      · rw [if_pos hc, if_pos hc]
        have hcpos : (0 : ℤ) < ⌈sr / lowp⌉ := Int.ceil_pos.mpr (div_pos hsr hc)
        rw [pyIdx_of_nonneg width _ (by omega)]
        omega
      · rw [if_neg hc, if_neg hc]
        rw [pyIdx_of_nonneg width _ (Int.natCast_nonneg width)]
        omega
    simp only [maskedSummaryOf, specMaskedSummary]
    rw [if_congr e1 rfl (if_congr e2 rfl (if_congr e3 rfl rfl))]
  have hargmax :
      argmaxOn (maskedSummaryOf (movie j) channels width sr lowp highp v) width =
        argmaxOn (specMaskedSummary (movie j) channels width sr lowp highp v) width :=
    argmaxOn_congr _ _ width hw hmask
  have h1 := (congrArg Prod.fst hframe).symm
  rw [h1, hargmax]

lemma movieC3_valley : valleyOf (movieC3 0) 1 20 = some 16 := by
  apply valleyOf_eq
  · norm_num
  · intro i hi
    simp [sumdifOf, hi]
  · have h17 : sumfiltOf (movieC3 0) 1 17 = 5 := by
      norm_num [sumfiltOf, summaryOf, movieC3, Finset.sum_range_succ]
    have h16 : sumfiltOf (movieC3 0) 1 16 = 0 := by
      norm_num [sumfiltOf, summaryOf, movieC3, Finset.sum_range_succ]
    norm_num [sumdifOf, h17, h16]

lemma movieC3_masked (l : ℕ) :
    maskedSummaryOf (movieC3 0) 1 20 100 0 100 16 l = if l = 17 then (5 : ℚ) else 0 := by
  have hdl : pyInt ((100 : ℚ) / 100) = 1 := by norm_num [pyInt]
  have hA : pyIdx 20 ((16 : ℕ) : ℤ) = 16 := by decide
  have hB : pyIdx 20 1 = 1 := by decide
  have hC : pyIdx 20 ((20 : ℕ) : ℤ) = 20 := by decide
  simp only [maskedSummaryOf, hdl, lt_self_iff_false, if_false, hA, hB, hC]
  rcases Nat.lt_or_ge l 16 with hl | hl
  · rw [if_pos hl, if_neg (by omega : ¬ l = 17)]
  · rw [if_neg (by omega : ¬ l < 16), if_neg (by omega : ¬ (1 ≤ l ∧ l < 1)),
      if_neg (by omega : ¬ (20 ≤ l ∧ l < 20))]
    simp only [summaryOf, Finset.sum_range_one, movieC3]
    rw [if_neg (by omega : ¬ l = 0)]

lemma movieC3_pitchFrame :
    pitchFrame (movieC3 0) 1 20 100 0 100 = some (100 / 17, 1 / 2) := by
  have harg : argmaxOn (maskedSummaryOf (movieC3 0) 1 20 100 0 100 16) 20 = 17 := by
    rw [argmaxOn_congr _ (fun l => if l = 17 then (5 : ℚ) else 0) 20 (by norm_num)
      (fun i _ => movieC3_masked i)]
    norm_num [argmaxOn, List.range_succ, List.foldl_append, List.foldl_cons, List.foldl_nil]
  simp only [pitchFrame, movieC3_valley, harg, movieC3_masked 17]
  norm_num [summaryOf, movieC3]

lemma movieC3_pitch :
    correlogram_pitch movieC3 1 1 20 100 0 100 = some resC3 := by
  simp [correlogram_pitch, pitchLoop, movieC3_pitchFrame, resC3]

/-- C3 witness: the salience-bound theorem applied to the concrete movie
`movieC3`, whose frame is valid, has `zero_lag = 10 > 0`, and on which the
extractor completes with salience `1/2`. -/
theorem correlogram_pitch_salience_in_unit_witness :
    correlogram_pitch movieC3 1 1 20 100 0 100 = some resC3 ∧
      0 < summaryOf (movieC3 0) 1 0 ∧
      (0 ≤ (resC3.getD 0 (0, 0)).2 ∧ (resC3.getD 0 (0, 0)).2 ≤ 1) := by
  have hzl : 0 < summaryOf (movieC3 0) 1 0 := by norm_num [summaryOf, movieC3]
  refine ⟨movieC3_pitch, hzl, ?_⟩
  exact correlogram_pitch_salience_in_unit movieC3 1 1 20 100 0 100 resC3 0
    movieC3_pitch (by norm_num)
    (by intro c _ l _; simp only [movieC3]; split_ifs <;> norm_num)
    (by intro c _ l _; simp only [movieC3]; split_ifs <;> norm_num)
    hzl

lemma movieC5_valley : valleyOf (movieC5 0) 1 20 = some 16 := by
  apply valleyOf_eq
  · norm_num
  · intro i hi
    simp [sumdifOf, hi]
  · have h17 : sumfiltOf (movieC5 0) 1 17 = 5 := by
      norm_num [sumfiltOf, summaryOf, movieC5, Finset.sum_range_succ]
    have h16 : sumfiltOf (movieC5 0) 1 16 = 0 := by
      norm_num [sumfiltOf, summaryOf, movieC5, Finset.sum_range_succ]
    norm_num [sumdifOf, h17, h16]

lemma movieC5_masked (l : ℕ) :
    maskedSummaryOf (movieC5 0) 1 20 100 0 100 16 l = if l = 17 then (5 : ℚ) else 0 := by
  have hdl : pyInt ((100 : ℚ) / 100) = 1 := by norm_num [pyInt]
  have hA : pyIdx 20 ((16 : ℕ) : ℤ) = 16 := by decide
  have hB : pyIdx 20 1 = 1 := by decide
  have hC : pyIdx 20 ((20 : ℕ) : ℤ) = 20 := by decide
  simp only [maskedSummaryOf, hdl, lt_self_iff_false, if_false, hA, hB, hC]
  rcases Nat.lt_or_ge l 16 with hl | hl
  · rw [if_pos hl, if_neg (by omega : ¬ l = 17)]
  · rw [if_neg (by omega : ¬ l < 16), if_neg (by omega : ¬ (1 ≤ l ∧ l < 1)),
      if_neg (by omega : ¬ (20 ≤ l ∧ l < 20))]
    simp only [summaryOf, Finset.sum_range_one, movieC5]
    by_cases h17 : l = 17
    · rw [if_pos h17, if_pos h17]
    · rw [if_neg h17, if_neg (by omega : ¬ l = 0), if_neg h17]

lemma movieC5_pitchFrame :
    pitchFrame (movieC5 0) 1 20 100 0 100 = some (100 / 17, 5 / 4) := by
  have harg : argmaxOn (maskedSummaryOf (movieC5 0) 1 20 100 0 100 16) 20 = 17 := by
    rw [argmaxOn_congr _ (fun l => if l = 17 then (5 : ℚ) else 0) 20 (by norm_num)
      (fun i _ => movieC5_masked i)]
    norm_num [argmaxOn, List.range_succ, List.foldl_append, List.foldl_cons, List.foldl_nil]
  simp only [pitchFrame, movieC5_valley, harg, movieC5_masked 17]
  norm_num [summaryOf, movieC5]

lemma movieC5_pitch :
    correlogram_pitch movieC5 1 1 20 100 0 100 = some resC5 := by
  simp [correlogram_pitch, pitchLoop, movieC5_pitchFrame, resC5]

/-- C5 witness: the pitch-formula theorem applied to the concrete movie
`movieC5`, on which the extractor completes with valley index 16 and
reported pitch `100/17`. -/
theorem correlogram_pitch_reported_pitch_witness :
    correlogram_pitch movieC5 1 1 20 100 0 100 = some resC5 ∧
      valleyOf (movieC5 0) 1 20 = some 16 ∧
      (resC5.getD 0 (0, 0)).1 =
        (if 0 < argmaxOn (specMaskedSummary (movieC5 0) 1 20 100 0 100 16) 20
         then (100 : ℚ) / (argmaxOn (specMaskedSummary (movieC5 0) 1 20 100 0 100 16) 20 : ℚ)
         else 0) :=
  ⟨movieC5_pitch, movieC5_valley,
    correlogram_pitch_reported_pitch movieC5 1 1 20 100 0 100 resC5 0 16
      movieC5_pitch (by norm_num) movieC5_valley (by norm_num) (by norm_num)⟩

lemma erbForwardChannel_unfold (s : ℕ → ℕ → ℝ) (x : List ℝ) :
    erbForwardChannel s x =
      lfilter3 (sosCol s 3) (sosCol s 4)
        (lfilter3 (sosCol s 2) (sosCol s 4)
          (lfilter3 (sosCol s 1) (sosCol s 4)
            (lfilter3 (sosCol s 0) (sosCol s 4) x))) := rfl

/-- C2 (amended): per channel, the filterbank executor applies exactly FOUR
biquad stages in series — the numerators are columns 0 through 3 of the
assembled `sos` matrix (stage 1 being the gain-normalized column), stage
feeding stage — and every stage shares the denominator column 4, which is
`(b0, b1, b2) = (1, b1, b2)` for designer output; channels are processed
identically and independently. -/
theorem erbForward_four_stage_cascade (fc : Fcoefs) (x : List ℝ) (c : ℕ) :
    erbForward (sosOf fc) x c =
      lfilter3 (sosCol (sosOf fc c) 3) (sosCol (sosOf fc c) 4)
        (lfilter3 (sosCol (sosOf fc c) 2) (sosCol (sosOf fc c) 4)
          (lfilter3 (sosCol (sosOf fc c) 1) (sosCol (sosOf fc c) 4)
            (lfilter3 (sosCol (sosOf fc c) 0) (sosCol (sosOf fc c) 4) x))) ∧
      sosCol (sosOf fc c) 4 =
        (fc.b0.getD c 0, fc.b1.getD c 0, fc.b2.getD c 0) :=
  ⟨erbForwardChannel_unfold _ _, rfl⟩

/-- C2 counterexample: on the synthetic one-channel coefficients `exFc` and
the input `[1, 0]`, the executor's output differs from the three-stage
cascade that the spec describes, so the executor does not realize a cascade
of 3 biquad sections. -/
theorem erbForward_ne_three_stage :
    erbForward (sosOf exFc) [1, 0] 0 ≠ specThreeStageCascade (sosOf exFc 0) [1, 0] := by
  rw [erbForward, erbForwardChannel_unfold]
  norm_num [lfilter3, biquadRun, sosCol, specThreeStageCascade, sosOf, exFc, List.getD]

lemma erbCf_strict (low high : ℝ) (n : ℤ) (hlow : 0 < low) (hlh : low < high)
    (hn : 1 ≤ n) {k1 k2 : ℕ} (hk : k1 < k2) :
    erbCf low high n k2 < erbCf low high n k1 := by
  have hc : (0 : ℝ) < earQ * minBw := by norm_num [earQ, minBw]
  have hL : 0 < low + earQ * minBw := by linarith
  have hH : 0 < high + earQ * minBw := by linarith
  have hM : -Real.log (high + earQ * minBw) + Real.log (low + earQ * minBw) < 0 := by
    have := Real.log_lt_log hL (by linarith : low + earQ * minBw < high + earQ * minBw)
    linarith
  have hn0 : (0 : ℝ) < (n : ℝ) := by exact_mod_cast (by omega : (0 : ℤ) < n)
  unfold erbCf
  have hmul : ((k2 : ℝ) + 1) *
        (-Real.log (high + earQ * minBw) + Real.log (low + earQ * minBw)) <
      ((k1 : ℝ) + 1) *
        (-Real.log (high + earQ * minBw) + Real.log (low + earQ * minBw)) :=
    mul_lt_mul_of_neg_right (by exact_mod_cast by omega) hM
  have hexp := Real.exp_lt_exp.mpr ((div_lt_div_iff_of_pos_right hn0).mpr hmul)
  have := mul_lt_mul_of_pos_right hexp hH
  linarith

/-- C4 (amended): for `0 < low_freq < high_freq` and `n ≥ 1` the `erb_space`
frequencies are strictly decreasing in index, the last entry equals
`low_freq` exactly (so `low_freq ≤ cf[n-1]`), the first entry is strictly
below `high_freq`, and `cf[n-1] < cf[0]` holds whenever `n ≥ 2` (at `n = 1`
the single entry is both `cf[0]` and `cf[n-1]`, so the strict inequality
between them fails). -/
theorem erb_space_monotone_bounded (low high : ℝ) (n : ℤ)
    (hlow : 0 < low) (hlh : low < high) (hn : 1 ≤ n) :
    (∀ k : ℕ, k + 1 < n.toNat → erbCf low high n (k + 1) < erbCf low high n k) ∧
      erbCf low high n (n.toNat - 1) = low ∧
      low ≤ erbCf low high n (n.toNat - 1) ∧
      erbCf low high n 0 < high ∧
      (2 ≤ n → erbCf low high n (n.toNat - 1) < erbCf low high n 0) := by
  have hc : (0 : ℝ) < earQ * minBw := by norm_num [earQ, minBw]
  have hL : 0 < low + earQ * minBw := by linarith
  have hH : 0 < high + earQ * minBw := by linarith
  have hM : -Real.log (high + earQ * minBw) + Real.log (low + earQ * minBw) < 0 := by
    have := Real.log_lt_log hL (by linarith : low + earQ * minBw < high + earQ * minBw)
    linarith
  have hn0 : (0 : ℝ) < (n : ℝ) := by exact_mod_cast (by omega : (0 : ℤ) < n)
  have hlast : erbCf low high n (n.toNat - 1) = low := by
    have hnt : 1 ≤ n.toNat := by omega
    have h2 : ((n.toNat : ℕ) : ℤ) = n := Int.toNat_of_nonneg (by omega)
    have hcast : ((n.toNat - 1 : ℕ) : ℝ) + 1 = (n : ℝ) := by
      rw [Nat.cast_sub hnt]
      have h3 : ((n.toNat : ℕ) : ℝ) = ((n : ℤ) : ℝ) := by exact_mod_cast congrArg Int.cast h2
      rw [h3]
      ring
    unfold erbCf
    rw [hcast, mul_div_cancel_left₀ _ (ne_of_gt hn0),
      show -Real.log (high + earQ * minBw) + Real.log (low + earQ * minBw) =
        Real.log (low + earQ * minBw) - Real.log (high + earQ * minBw) by ring,
      Real.exp_sub, Real.exp_log hL, Real.exp_log hH,
      div_mul_cancel₀ _ (ne_of_gt hH)]
    ring
  refine ⟨fun k _ => erbCf_strict low high n hlow hlh hn (Nat.lt_succ_self k),
    hlast, le_of_eq hlast.symm, ?_, fun h2 => ?_⟩
  · unfold erbCf
    have hexp : Real.exp (((0 : ℕ) + 1) *
          (-Real.log (high + earQ * minBw) + Real.log (low + earQ * minBw)) / n) <
        1 := by
      calc Real.exp (((0 : ℕ) + 1) *
            (-Real.log (high + earQ * minBw) + Real.log (low + earQ * minBw)) / n) <
          Real.exp 0 :=
            Real.exp_lt_exp.mpr (div_neg_of_neg_of_pos (by norm_num [hM]) hn0)
        _ = 1 := Real.exp_zero
    have := mul_lt_mul_of_pos_right hexp hH
    push_cast
    push_cast at this
    linarith
  · exact erbCf_strict low high n hlow hlh hn (by omega : 0 < n.toNat - 1)

/-- C4 witness: the amended monotonicity/bounds theorem at
`low = 100`, `high = 200`, `n = 3`. -/
theorem erb_space_monotone_bounded_witness :
    (∀ k : ℕ, k + 1 < (3 : ℤ).toNat →
        erbCf 100 200 3 (k + 1) < erbCf 100 200 3 k) ∧
      erbCf 100 200 3 ((3 : ℤ).toNat - 1) = 100 ∧
      (100 : ℝ) ≤ erbCf 100 200 3 ((3 : ℤ).toNat - 1) ∧
      erbCf 100 200 3 0 < 200 ∧
      (2 ≤ (3 : ℤ) → erbCf 100 200 3 ((3 : ℤ).toNat - 1) < erbCf 100 200 3 0) :=
  erb_space_monotone_bounded 100 200 3 (by norm_num) (by norm_num) (by norm_num)

/-- C4 counterexample: at `low = 100`, `high = 200`, `n = 1` the claimed
chain `low ≤ cf[n-1] < cf[0] < high` fails, because `cf[n-1]` and `cf[0]`
are the same (single) entry and the middle inequality is strict. -/
theorem erb_space_bound_fails_at_one :
    ¬ ((100 : ℝ) ≤ erbCf 100 200 1 0 ∧ erbCf 100 200 1 0 < erbCf 100 200 1 0 ∧
        erbCf 100 200 1 0 < 200) :=
  fun h => lt_irrefl _ h.2.1

/-- C6 (amended): `erb_space` performs no validation of the documented
kind.  Whenever the `math.log` arguments stay positive
(`low_freq > -ear_q*min_bw` and `high_freq > -ear_q*min_bw`) and `n ≥ 0`,
it returns a center-frequency array of length `n` without error —
including for `low_freq ≤ 0`, `high_freq ≤ low_freq` and `n = 0` (an empty
array); the only raising executions are the `math.log` domain error and
`torch.arange`'s `RuntimeError` for `n < 0`. -/
theorem erb_space_no_validation (low high : ℝ) (n : ℤ)
    (hl : -(earQ * minBw) < low) (hh : -(earQ * minBw) < high) (hn : 0 ≤ n) :
    ∃ cfs, erb_space low high n = some cfs ∧ cfs.length = n.toNat := by
  rw [erb_space, if_neg]
  · exact ⟨_, rfl, by simp⟩
  · push_neg
    exact ⟨hn, by linarith, by linarith⟩

/-- C6 witness: the no-validation theorem at `low = -1 ≤ 0`,
`high = 300`, `n = 5`. -/
theorem erb_space_no_validation_witness :
    ∃ cfs, erb_space (-1) 300 5 = some cfs ∧ cfs.length = (5 : ℤ).toNat :=
  erb_space_no_validation (-1) 300 5 (by norm_num [earQ, minBw])
    (by norm_num [earQ, minBw]) (by norm_num)

/-- C6 counterexample: at `low_freq = 0` (where the claim demands an
`InvalidArgument` failure) `erb_space` returns an ordinary length-3
center-frequency array, and at `n = 0 < 1` it returns an empty tensor
without error (the `/n` is a division of the empty arange-product tensor,
so nothing raises). -/
theorem erb_space_returns_at_zero_low :
    (∃ cfs, erb_space 0 200 3 = some cfs ∧ cfs.length = 3) ∧
      (∃ cfs, erb_space 100 200 0 = some cfs ∧ cfs.length = 0) := by
  constructor
  · rw [erb_space, if_neg (by norm_num [earQ, minBw])]
    exact ⟨_, rfl, by simp⟩
  · rw [erb_space, if_neg (by norm_num [earQ, minBw])]
    exact ⟨_, rfl, by simp⟩

/-- C7 (amended): `make_erb_filters` performs no argument validation: the
only raising execution is the `ZeroDivisionError` of `t = 1/fs` at
`fs = 0`.  For every other sample rate — including negative ones — and any
center frequencies — including non-positive or above-Nyquist ones — it
returns the ten coefficient arrays, each with one entry per channel.
(The documented checks on the sample rate and lowest frequency live in the
`ErbFilterBank` constructor, not in `make_erb_filters`.) -/
theorem make_erb_filters_no_validation (fs : ℝ) (cfs : List ℝ) (hfs : fs ≠ 0) :
    ∃ fc, make_erb_filters fs cfs = some fc ∧
      fc.a0.length = cfs.length ∧ fc.a11.length = cfs.length ∧
      fc.a12.length = cfs.length ∧ fc.a13.length = cfs.length ∧
      fc.a14.length = cfs.length ∧ fc.a2.length = cfs.length ∧
      fc.b0.length = cfs.length ∧ fc.b1.length = cfs.length ∧
      fc.b2.length = cfs.length ∧ fc.gain.length = cfs.length := by
  rw [make_erb_filters, if_neg hfs]
  exact ⟨_, rfl, by simp, by simp, by simp, by simp, by simp, by simp, by simp,
    by simp, by simp, by simp⟩

/-- C7 witness: the no-validation theorem at `fs = -2`, center frequencies
`[50, 9000]`. -/
theorem make_erb_filters_no_validation_witness :
    ∃ fc, make_erb_filters (-2) [50, 9000] = some fc ∧
      fc.a0.length = [(50 : ℝ), 9000].length ∧ fc.a11.length = [(50 : ℝ), 9000].length ∧
      fc.a12.length = [(50 : ℝ), 9000].length ∧ fc.a13.length = [(50 : ℝ), 9000].length ∧
      fc.a14.length = [(50 : ℝ), 9000].length ∧ fc.a2.length = [(50 : ℝ), 9000].length ∧
      fc.b0.length = [(50 : ℝ), 9000].length ∧ fc.b1.length = [(50 : ℝ), 9000].length ∧
      fc.b2.length = [(50 : ℝ), 9000].length ∧ fc.gain.length = [(50 : ℝ), 9000].length :=
  make_erb_filters_no_validation (-2) [50, 9000] (by norm_num)

/-- C7 counterexample: at `sample_rate = -1` with the center frequency
`100` (which also violates the Nyquist condition `100 < -1/2`), where the
claim demands an `InvalidArgument` failure, `make_erb_filters` returns its
ten coefficient arrays normally. -/
theorem make_erb_filters_returns_at_negative_fs :
    ∃ fc, make_erb_filters (-1) [100] = some fc := by
  rw [make_erb_filters, if_neg (by norm_num : (-1 : ℝ) ≠ 0)]
  exact ⟨_, rfl⟩

/-- C8 (amended): for a signal shorter than the requested width the array
builder does not uniformly fail.  With `frame_increment = int(sr/frame_rate)
≥ 1` and `width ≥ 3` (for `width < 3` every frame computation itself raises
`IndexError` in the good-row test): if `T + frame_increment ≤ width` then
`frame_count ≤ 0` and `torch.cat` of the empty frame list raises (`none`);
but if `width - frame_increment < T < width`, truncation toward zero makes
`frame_count = int((T-width)/frame_increment) + 1 = 1` and an ordinary
non-empty one-frame movie is returned. -/
theorem correlogram_array_short_signal (data : ℕ → ℕ → ℝ) (dataLen : ℕ) (sr : ℝ)
    (frameRate : ℤ) (width : ℕ) (hfr : 0 < frameRate) (hsr : (frameRate : ℝ) ≤ sr)
    (hw : dataLen < width) (hw3 : 3 ≤ width) :
    ((dataLen : ℤ) + pyInt (sr / (frameRate : ℝ)) ≤ (width : ℤ) →
      correlogram_array data dataLen sr frameRate width = none) ∧
    ((width : ℤ) < (dataLen : ℤ) + pyInt (sr / (frameRate : ℝ)) →
      ∃ frame, correlogram_array data dataLen sr frameRate width = some [frame]) := by
  have hfr0 : (0 : ℝ) < (frameRate : ℝ) := by exact_mod_cast hfr
  have hx1 : (1 : ℝ) ≤ sr / (frameRate : ℝ) := by
    rw [le_div_iff₀ hfr0]; linarith
  have hinc1 : 1 ≤ pyInt (sr / (frameRate : ℝ)) := by
    rw [pyInt, if_pos (by linarith)]
    exact Int.le_floor.mpr (by exact_mod_cast hx1)
  set inc := pyInt (sr / (frameRate : ℝ)) with hid
  have hincR : (0 : ℝ) < (inc : ℝ) := by exact_mod_cast (by omega : (0 : ℤ) < inc)
  constructor
  · intro hle
    have hleR : (dataLen : ℝ) + (inc : ℝ) ≤ (width : ℝ) := by exact_mod_cast hle
    have hd : ((dataLen : ℝ) - (width : ℝ)) / (inc : ℝ) ≤ -1 := by
      rw [div_le_iff₀ hincR]; linarith
    have hcount : pyInt (((dataLen : ℝ) - (width : ℝ)) / (inc : ℝ)) + 1 ≤ 0 := by
      rw [pyInt, if_neg (by linarith : ¬ (0 : ℝ) ≤ ((dataLen : ℝ) - (width : ℝ)) / (inc : ℝ))]
      have hceil : ⌈((dataLen : ℝ) - (width : ℝ)) / (inc : ℝ)⌉ ≤ -1 :=
        Int.ceil_le.mpr (by push_cast; linarith)
      omega
    simp only [correlogram_array]
    rw [← hid, if_neg (by omega : ¬ inc = 0), if_pos hcount]
  · intro hlt
    have hltR : (width : ℝ) < (dataLen : ℝ) + (inc : ℝ) := by exact_mod_cast hlt
    have hwR : (dataLen : ℝ) < (width : ℝ) := by exact_mod_cast hw
    have hdneg : ((dataLen : ℝ) - (width : ℝ)) / (inc : ℝ) < 0 :=
      div_neg_of_neg_of_pos (by linarith) hincR
    have hcount : pyInt (((dataLen : ℝ) - (width : ℝ)) / (inc : ℝ)) + 1 = 1 := by
      rw [pyInt, if_neg (not_le.mpr hdneg)]
      have hceil : ⌈((dataLen : ℝ) - (width : ℝ)) / (inc : ℝ)⌉ = 0 := by
        apply Int.ceil_eq_zero_iff.mpr
        constructor
        · show (-1 : ℝ) < ((dataLen : ℝ) - (width : ℝ)) / (inc : ℝ)
          rw [lt_div_iff₀ hincR]
          linarith
        · exact le_of_lt hdneg
      omega
    simp only [correlogram_array]
    rw [← hid, if_neg (by omega : ¬ inc = 0), hcount,
      if_neg (by norm_num : ¬ (1 : ℤ) ≤ 0), if_neg (by omega : ¬ inc < 0),
      if_neg (by omega : ¬ width < 3)]
    refine ⟨correlogram_frame data dataLen width (((0 : ℕ) : ℤ) * inc) (inc * 4), ?_⟩
    rw [show (1 : ℤ).toNat = 1 from rfl]
    rfl

/-- C8 witness: the short-signal theorem at `T = 3`, `width = 4`,
`sampling_rate = 4`, `frame_rate = 1` (so `frame_increment = 4`): the
one-frame branch applies. -/
theorem correlogram_array_short_signal_witness :
    ∃ frame, correlogram_array arrData 3 4 1 4 = some [frame] :=
  (correlogram_array_short_signal arrData 3 4 1 4 (by norm_num) (by norm_num)
      (by norm_num) (by norm_num)).2 (by norm_num [pyInt])

/-- C8 counterexample: with `T = 3 < width = 4`, `sampling_rate = 4` and
`frame_rate = 1`, `frame_count = int(-1/4) + 1 = 1` and `correlogram_array`
returns an ordinary non-empty one-frame movie instead of failing. -/
theorem correlogram_array_nonempty_on_short :
    (3 : ℕ) < 4 ∧ ∃ frame, correlogram_array arrData 3 4 1 4 = some [frame] := by
  refine ⟨by norm_num, ?_⟩
  have h1 : pyInt ((4 : ℝ) / ((1 : ℤ) : ℝ)) = 4 := by norm_num [pyInt]
  have h2 : pyInt ((((3 : ℕ) : ℝ) - ((4 : ℕ) : ℝ)) / ((4 : ℤ) : ℝ)) + 1 = 1 := by
    norm_num [pyInt]
  simp only [correlogram_array, h1]
  rw [if_neg (by norm_num : ¬ (4 : ℤ) = 0), h2,
    if_neg (by norm_num : ¬ (1 : ℤ) ≤ 0), if_neg (by norm_num : ¬ (4 : ℤ) < 0),
    if_neg (by norm_num : ¬ (4 : ℕ) < 3)]
  exact ⟨_, by rw [show (1 : ℤ).toNat = 1 from rfl]; rfl⟩

lemma correlogram_frame_good (data : ℕ → ℕ → ℝ) (dataLen picWidth : ℕ)
    (start winLen : ℤ) (c : ℕ)
    (h : goodRow (corrPic data dataLen picWidth start winLen) c) :
    correlogram_frame data dataLen picWidth start winLen c 0 =
      Real.sqrt (corrPic data dataLen picWidth start winLen c 0) := by
  unfold correlogram_frame
  rw [if_pos h, mul_one_div,
    div_eq_iff (ne_of_gt (Real.sqrt_pos.mpr h.1))]
  exact (Real.mul_self_sqrt (le_of_lt h.1)).symm

/-- C1 (amended): in every returned correlogram frame, a good channel
(lag-0 value positive and strictly above the lag-1 and lag-2 values) is
rescaled by `1/sqrt(lag0)`, so every lag is divided by `sqrt(lag0)` and the
returned lag-0 value equals `sqrt(lag0)` — which is 1 only when the raw
lag-0 autocorrelation is 1 — while every bad channel is entirely zero. -/
theorem correlogram_frame_normalization (data : ℕ → ℕ → ℝ) (dataLen picWidth : ℕ)
    (start winLen : ℤ) (c : ℕ) :
    (goodRow (corrPic data dataLen picWidth start winLen) c →
      correlogram_frame data dataLen picWidth start winLen c 0 =
        Real.sqrt (corrPic data dataLen picWidth start winLen c 0) ∧
      ∀ k, correlogram_frame data dataLen picWidth start winLen c k =
        corrPic data dataLen picWidth start winLen c k /
          Real.sqrt (corrPic data dataLen picWidth start winLen c 0)) ∧
    (¬ goodRow (corrPic data dataLen picWidth start winLen) c →
      ∀ k, correlogram_frame data dataLen picWidth start winLen c k = 0) := by
  constructor
  · intro h
    refine ⟨correlogram_frame_good data dataLen picWidth start winLen c h, fun k => ?_⟩
    unfold correlogram_frame
    rw [if_pos h, mul_one_div]
  · intro h k
    unfold correlogram_frame
    rw [if_neg h]

lemma oneData_winLen : corrWinLen 1 0 = 1 := by decide

lemma oneData_fft : fftSizeOf 3 1 = 8 := by
  show 2 ^ Nat.clog 2 (2 * max 3 (1 : ℤ).toNat) = 8
  norm_num
  rw [Nat.clog_of_two_le (by norm_num) (by norm_num)]
  norm_num
  rw [Nat.clog_of_two_le (by norm_num) (by norm_num)]
  norm_num
  rw [Nat.clog_of_two_le (by norm_num) (by norm_num)]
  norm_num

lemma corrWindow_one_zero : corrWindow 1 0 = 1 / Real.sqrt (1987 / 1250) := by
  unfold corrWindow
  rw [show 2 * Real.pi * ((0 : ℕ) : ℝ) / ((1 : ℤ) : ℝ) + Real.pi / ((1 : ℤ) : ℝ) =
      Real.pi by push_cast; ring]
  rw [Real.cos_pi]
  rw [show (64 : ℝ) / 256 = (1 / 2) ^ 2 by norm_num,
    Real.sqrt_sq (by norm_num : (0 : ℝ) ≤ 1 / 2)]
  rw [show (4 * 0.54 * 0.54 + 2 * (-0.46) * (-0.46) : ℝ) = 1987 / 1250 by norm_num]
  ring_nf

lemma oneData_segment (n : ℕ) :
    corrSegment oneData 1 0 1 0 n = if n = 0 then corrWindow 1 0 else 0 := by
  unfold corrSegment oneData
  by_cases h : n = 0
  · subst h; norm_num
  · rw [if_neg (by push_cast; omega :
      ¬ ((n : ℤ) < min ((1 : ℕ) : ℤ) (max 0 0 + 1) - max 0 0)), if_neg h]

lemma oneData_pic0 : corrPic oneData 1 3 0 0 0 0 = 1250 / 1987 := by
  unfold corrPic
  rw [oneData_winLen, oneData_fft]
  unfold circAcf
  simp only [Finset.sum_range_succ, Finset.sum_range_zero, oneData_segment]
  norm_num
  rw [corrWindow_one_zero, div_mul_div_comm,
    Real.mul_self_sqrt (by norm_num : (0 : ℝ) ≤ 1987 / 1250)]
  rw [show (1 * 1 : ℝ) / (1987 / 1250) = 1250 / 1987 by norm_num]
  exact max_eq_right (by norm_num : (0 : ℝ) ≤ 1250 / 1987)

lemma oneData_pic1 : corrPic oneData 1 3 0 0 0 1 = 0 := by
  unfold corrPic
  rw [oneData_winLen, oneData_fft]
  unfold circAcf
  simp only [Finset.sum_range_succ, Finset.sum_range_zero, oneData_segment]
  norm_num

lemma oneData_pic2 : corrPic oneData 1 3 0 0 0 2 = 0 := by
  unfold corrPic
  rw [oneData_winLen, oneData_fft]
  unfold circAcf
  simp only [Finset.sum_range_succ, Finset.sum_range_zero, oneData_segment]
  norm_num

lemma oneData_good : goodRow (corrPic oneData 1 3 0 0) 0 := by
  refine ⟨?_, ?_, ?_⟩
  · rw [oneData_pic0]; norm_num
  · rw [oneData_pic1, oneData_pic0]; norm_num
  · rw [oneData_pic2, oneData_pic0]; norm_num

/-- C1 witness: on the one-sample constant input, channel 0 is good (raw
lag-0 autocorrelation `1250/1987 > 0`, lags 1 and 2 zero) and the theorem
yields a returned lag-0 value of `sqrt(1250/1987)`. -/
theorem correlogram_frame_normalization_witness :
    goodRow (corrPic oneData 1 3 0 0) 0 ∧
      correlogram_frame oneData 1 3 0 0 0 0 =
        Real.sqrt (corrPic oneData 1 3 0 0 0 0) :=
  ⟨oneData_good, ((correlogram_frame_normalization oneData 1 3 0 0 0).1 oneData_good).1⟩

/-- C1 counterexample: on the one-sample constant input, channel 0 passes
the good-row test yet its lag-0 value in the returned frame is
`sqrt(1250/1987) ≠ 1`: good channels are not normalized to an exact lag-0
value of 1. -/
theorem correlogram_frame_lag0_ne_one :
    goodRow (corrPic oneData 1 3 0 0) 0 ∧
      correlogram_frame oneData 1 3 0 0 0 0 ≠ 1 := by
  refine ⟨oneData_good, ?_⟩
  rw [correlogram_frame_good oneData 1 3 0 0 0 oneData_good, oneData_pic0]
  intro h
  have h2 : (1250 / 1987 : ℝ) = 1 := by
    calc (1250 / 1987 : ℝ)
        = Real.sqrt (1250 / 1987) * Real.sqrt (1250 / 1987) :=
          (Real.mul_self_sqrt (by norm_num : (0 : ℝ) ≤ 1250 / 1987)).symm
      _ = 1 * 1 := by rw [h]
      _ = 1 := by norm_num
  norm_num at h2
